import Mathlib

/-
Verification of the canvas-works affine-transform / render-loop core.

The development shallowly embeds the TypeScript sources of the repository:
machine floating-point numbers are modelled as exact rationals (and reals
where a square root is involved), so every "non-finite" guard of the source
is vacuous in the embedding; fallible operations return Option.
-/

namespace CanvasWorks

/-- 2D affine matrix [a c e; b d f; 0 0 1], from src/libs/canvas-works/src/lib/matrix.ts. -/
structure Matrix where
  a : ℚ
  b : ℚ
  c : ℚ
  d : ℚ
  e : ℚ
  f : ℚ
deriving DecidableEq, Repr

/-- A 2D point with x/y coordinates, as the plain record used throughout the sources. -/
structure Pt where
  x : ℚ
  y : ℚ
deriving DecidableEq, Repr

/-- The identity matrix I of matrix.ts. -/
def I : Matrix := ⟨1, 0, 0, 1, 0, 0⟩

/-- Matrix composition, matrix.ts mul (apply m2 first). -/
def mul (m1 m2 : Matrix) : Matrix :=
  ⟨m1.a * m2.a + m1.c * m2.b,
   m1.b * m2.a + m1.d * m2.b,
   m1.a * m2.c + m1.c * m2.d,
   m1.b * m2.c + m1.d * m2.d,
   m1.a * m2.e + m1.c * m2.f + m1.e,
   m1.b * m2.e + m1.d * m2.f + m1.f⟩

/-- matrix.ts translate. -/
def translate (tx ty : ℚ) : Matrix := ⟨1, 0, 0, 1, tx, ty⟩

/-- matrix.ts scale. -/
def scale (sx sy : ℚ) : Matrix := ⟨sx, 0, 0, sy, 0, 0⟩

/-- matrix.ts scaleAt: translate(px,py) ∘ scale(sx,sy) ∘ translate(-px,-py). -/
def scaleAt (sx sy px py : ℚ) : Matrix :=
  mul (translate px py) (mul (scale sx sy) (translate (-px) (-py)))

/-- The determinant a*d - b*c used by matrix.ts invert. -/
def det (m : Matrix) : ℚ := m.a * m.d - m.b * m.c

/-- matrix.ts invert.  The source guard is
`!Number.isFinite(det) || Math.abs(det) < 1e-12`; in exact rational
arithmetic the non-finite disjunct is vacuous, leaving the 1e-12 test.
The source multiplies each entry by invDet = 1/det. -/
def invert (m : Matrix) : Option Matrix :=
  if |m.a * m.d - m.b * m.c| < 1 / 10 ^ 12 then none
  else
    some ⟨m.d * (1 / (m.a * m.d - m.b * m.c)),
          -m.b * (1 / (m.a * m.d - m.b * m.c)),
          -m.c * (1 / (m.a * m.d - m.b * m.c)),
          m.a * (1 / (m.a * m.d - m.b * m.c)),
          (m.c * m.f - m.d * m.e) * (1 / (m.a * m.d - m.b * m.c)),
          (m.b * m.e - m.a * m.f) * (1 / (m.a * m.d - m.b * m.c))⟩

/-- matrix.ts apply: transform a point. -/
def apply (m : Matrix) (x y : ℚ) : Pt :=
  ⟨m.a * x + m.c * y + m.e, m.b * x + m.d * y + m.f⟩

/-- matrix.ts getScale: `Math.hypot(m.a, m.b) || 1`, the length of the first
column with fallback 1 when that length is zero (the JS `|| 1` turns a zero
hypot into 1).  Real-valued because of the square root. -/
noncomputable def getScale (m : Matrix) : ℝ :=
  if Real.sqrt ((m.a : ℝ) ^ 2 + (m.b : ℝ) ^ 2) = 0 then 1
  else Real.sqrt ((m.a : ℝ) ^ 2 + (m.b : ℝ) ^ 2)

-- Basic algebraic helper lemmas shared by several claims.

theorem apply_mul (m1 m2 : Matrix) (x y : ℚ) :
    apply (mul m1 m2) x y = apply m1 (apply m2 x y).x (apply m2 x y).y := by
  simp only [apply, mul, Pt.mk.injEq]
  constructor <;> ring

theorem apply_I (x y : ℚ) : apply I x y = ⟨x, y⟩ := by
  simp [apply, I]

theorem invert_eq_none_iff (m : Matrix) :
    invert m = none ↔ |det m| < 1 / 10 ^ 12 := by
  rw [invert, det]
  split <;> simp_all

theorem invert_eq_some_elim {m mi : Matrix} (h : invert m = some mi) :
    ¬ |det m| < 1 / 10 ^ 12 ∧
      mi = ⟨m.d * (1 / det m), -m.b * (1 / det m), -m.c * (1 / det m),
            m.a * (1 / det m), (m.c * m.f - m.d * m.e) * (1 / det m),
            (m.b * m.e - m.a * m.f) * (1 / det m)⟩ := by
  rw [invert] at h
  split at h
  · exact absurd h (by simp)
  · rw [det]
    exact ⟨by assumption, (Option.some_injective _ h).symm⟩

theorem det_ne_zero_of_invert {m mi : Matrix} (h : invert m = some mi) :
    det m ≠ 0 := by
  intro hz
  have h1 := (invert_eq_some_elim h).1
  rw [hz] at h1
  exact h1 (by norm_num)

theorem mul_invert_right {m mi : Matrix} (h : invert m = some mi) :
    mul m mi = I := by
  obtain ⟨-, hmi⟩ := invert_eq_some_elim h
  have hd : det m ≠ 0 := det_ne_zero_of_invert h
  rw [det] at hd
  subst hmi
  simp only [mul, I, det, Matrix.mk.injEq]
  refine ⟨?_, ?_, ?_, ?_, ?_, ?_⟩ <;> field_simp <;> ring

theorem mul_invert_left {m mi : Matrix} (h : invert m = some mi) :
    mul mi m = I := by
  obtain ⟨-, hmi⟩ := invert_eq_some_elim h
  have hd : det m ≠ 0 := det_ne_zero_of_invert h
  rw [det] at hd
  subst hmi
  simp only [mul, I, det, Matrix.mk.injEq]
  refine ⟨?_, ?_, ?_, ?_, ?_, ?_⟩ <;> field_simp <;> ring

theorem apply_invert_apply {m mi : Matrix} (h : invert m = some mi) (x y : ℚ) :
    apply mi (apply m x y).x (apply m x y).y = ⟨x, y⟩ := by
  rw [← apply_mul, mul_invert_left h, apply_I]

theorem apply_apply_invert {m mi : Matrix} (h : invert m = some mi) (x y : ℚ) :
    apply m (apply mi x y).x (apply mi x y).y = ⟨x, y⟩ := by
  rw [← apply_mul, mul_invert_right h, apply_I]

/-- C5: invert fails exactly on the near-singular guard and is otherwise a
two-sided inverse.  In the exact-rational embedding the source's
non-finite-determinant disjunct cannot fire, so failure is equivalent to
|det| < 1e-12; on success both composites are the identity matrix. -/
theorem invert_guard_and_inverse (m : Matrix) :
    (invert m = none ↔ |det m| < 1 / 10 ^ 12) ∧
      ∀ mi : Matrix, invert m = some mi → mul m mi = I ∧ mul mi m = I :=
  ⟨invert_eq_none_iff m, fun _ h => ⟨mul_invert_right h, mul_invert_left h⟩⟩

unseal Rat.mul Rat.add Rat.sub Rat.inv in
/-- Witness for C5 at the concrete matrix scale 2 2. -/
theorem invert_guard_witness :
    invert (scale 2 2) = some ⟨1/2, 0, 0, 1/2, 0, 0⟩ ∧
      mul (scale 2 2) ⟨1/2, 0, 0, 1/2, 0, 0⟩ = I ∧
        mul (⟨1/2, 0, 0, 1/2, 0, 0⟩ : Matrix) (scale 2 2) = I :=
  ⟨by decide, (invert_guard_and_inverse (scale 2 2)).2 _ (by decide)⟩

/-
Provider matrix state, from CanvasProvider.tsx.  The provider keeps four
cached matrices (cssFromWorld, deviceFromWorld, worldFromCss,
worldFromDevice), all initially the identity; recomputeMatrices updates
them from the device-pixel ratio and the world matrix, keeping the previous
inverse whenever invert fails.
-/

/-- The four cached matrices of CanvasProvider.tsx (refs initialised to I). -/
structure MatState where
  cssFromWorld : Matrix
  deviceFromWorld : Matrix
  worldFromCss : Matrix
  worldFromDevice : Matrix
deriving DecidableEq, Repr

/-- Initial provider matrix state: every cached matrix starts as I. -/
def initMatState : MatState := ⟨I, I, I, I⟩

/-- The uniform device-pixel-ratio scale matrix built inline in
recomputeMatrices. -/
def dprScale (dpr : ℚ) : Matrix := ⟨dpr, 0, 0, dpr, 0, 0⟩

/-- CanvasProvider.tsx recomputeMatrices: store world as cssFromWorld,
dpr·world as deviceFromWorld, and update each cached inverse only when
invert succeeds (a failed inversion leaves the previous inverse in place). -/
def recomputeMatrices (dpr : ℚ) (w : Matrix) (s : MatState) : MatState :=
  let dfw := mul (dprScale dpr) w
  let s1 : MatState := { s with cssFromWorld := w, deviceFromWorld := dfw }
  let s2 : MatState :=
    match invert w with
    | some iw => { s1 with worldFromCss := iw }
    | none => s1
  match invert dfw with
  | some idw => { s2 with worldFromDevice := idw }
  | none => s2

/-- CanvasProvider.tsx public toScreen: apply cssFromWorld (CSS px units). -/
def toScreen (s : MatState) (p : Pt) : Pt := apply s.cssFromWorld p.x p.y

/-- CanvasProvider.tsx public toWorld: apply worldFromCss. -/
def toWorld (s : MatState) (p : Pt) : Pt := apply s.worldFromCss p.x p.y

/-- CanvasProvider.tsx panByScreen: world becomes translate(dx,dy) ∘ world,
returning the new world matrix together with the recomputed cached state. -/
def panByScreen (dpr dx dy : ℚ) (w : Matrix) (s : MatState) : Matrix × MatState :=
  (mul (translate dx dy) w, recomputeMatrices dpr (mul (translate dx dy) w) s)

/-- CanvasProvider.tsx zoomAtScreen: world becomes scaleAt(k,k,cx,cy) ∘ world,
returning the new world matrix together with the recomputed cached state. -/
def zoomAtScreen (dpr cx cy k : ℚ) (w : Matrix) (s : MatState) : Matrix × MatState :=
  (mul (scaleAt k k cx cy) w, recomputeMatrices dpr (mul (scaleAt k k cx cy) w) s)

/-
The superseded provider variant bundled after PanZoomControl.tsx keeps only
screenFromWorld = dpr·world and worldFromScreen = invert(dpr·world); the
inversion result (possibly null) is stored directly into the ref.
-/

/-- Matrix state of the variant provider: worldFromScreen holds the raw
result of invert (none models the null the source stores). -/
structure VarState where
  screenFromWorld : Matrix
  worldFromScreen : Option Matrix
deriving DecidableEq, Repr

/-- Initial refs of the variant provider (both I). -/
def initVarState : VarState := ⟨I, some I⟩

/-- Variant recomputeMatrices: both refs overwritten unconditionally; the
worldFromScreen ref receives invert(dpr·world) even when that is null. -/
def varRecomputeMatrices (dpr : ℚ) (w : Matrix) : VarState :=
  ⟨mul (dprScale dpr) w, invert (mul (dprScale dpr) w)⟩

/-- Variant toScreen: apply screenFromWorld = dpr·world (device px units). -/
def varToScreen (s : VarState) (p : Pt) : Pt := apply s.screenFromWorld p.x p.y

/-- Variant toWorld: applies the stored worldFromScreen; none models the
crash on dereferencing a stored null matrix. -/
def varToWorld (s : VarState) (p : Pt) : Option Pt :=
  s.worldFromScreen.map (fun m => apply m p.x p.y)

theorem recompute_cssFromWorld (dpr : ℚ) (w : Matrix) (s : MatState) :
    (recomputeMatrices dpr w s).cssFromWorld = w := by
  unfold recomputeMatrices
  cases h1 : invert w <;> cases h2 : invert (mul (dprScale dpr) w) <;> simp [h1, h2]

theorem recompute_worldFromCss (dpr : ℚ) (w : Matrix) (s : MatState) :
    (recomputeMatrices dpr w s).worldFromCss =
      match invert w with
      | some iw => iw
      | none => s.worldFromCss := by
  unfold recomputeMatrices
  cases h1 : invert w <;> cases h2 : invert (mul (dprScale dpr) w) <;> simp [h1, h2]

/-- C4: with a non-degenerate world matrix (invert succeeds, i.e. the
determinant passes the 1e-12 guard), the provider's toWorld and toScreen
are exact mutual inverses on every point, whatever the dpr and the
previously cached state. -/
theorem roundtrip_toWorld_toScreen (dpr : ℚ) (w wi : Matrix) (s : MatState)
    (p : Pt) (h : invert w = some wi) :
    toWorld (recomputeMatrices dpr w s) (toScreen (recomputeMatrices dpr w s) p) = p ∧
      toScreen (recomputeMatrices dpr w s) (toWorld (recomputeMatrices dpr w s) p) = p := by
  have hc := recompute_cssFromWorld dpr w s
  have hw := recompute_worldFromCss dpr w s
  rw [h] at hw
  constructor
  · rw [toWorld, toScreen, hc, hw, apply_invert_apply h]
  · rw [toWorld, toScreen, hc, hw, apply_apply_invert h]

unseal Rat.mul Rat.add Rat.sub Rat.inv in
/-- Witness for C4 at dpr 2, world scale 2 2, point (3,5). -/
theorem roundtrip_witness :
    invert (scale 2 2) = some ⟨1/2, 0, 0, 1/2, 0, 0⟩ ∧
      toWorld (recomputeMatrices 2 (scale 2 2) initMatState)
          (toScreen (recomputeMatrices 2 (scale 2 2) initMatState) ⟨3, 5⟩) = ⟨3, 5⟩ :=
  ⟨by decide,
   (roundtrip_toWorld_toScreen 2 (scale 2 2) ⟨1/2, 0, 0, 1/2, 0, 0⟩
     initMatState ⟨3, 5⟩ (by decide)).1⟩

/-- C3 (amended): in CanvasProvider.tsx the consumer-facing conversions use
logical units: toScreen applies the world matrix alone and toWorld applies
its inverse, so both are unchanged when the dpr changes and the world does
not.  (The superseded variant provider instead converts in device units;
see the counterexample.) -/
theorem toScreen_logical_units_amended (dpr dpr2 : ℚ) (w : Matrix)
    (s s2 : MatState) (p : Pt) :
    toScreen (recomputeMatrices dpr w s) p = apply w p.x p.y ∧
      toScreen (recomputeMatrices dpr w s) p = toScreen (recomputeMatrices dpr2 w s2) p ∧
        ∀ wi : Matrix, invert w = some wi →
          toWorld (recomputeMatrices dpr w s) p = apply wi p.x p.y ∧
            toWorld (recomputeMatrices dpr w s) p = toWorld (recomputeMatrices dpr2 w s2) p := by
  refine ⟨?_, ?_, ?_⟩
  · rw [toScreen, recompute_cssFromWorld]
  · rw [toScreen, toScreen, recompute_cssFromWorld, recompute_cssFromWorld]
  · intro wi h
    have h1 := recompute_worldFromCss dpr w s
    have h2 := recompute_worldFromCss dpr2 w s2
    rw [h] at h1 h2
    rw [toWorld, toWorld, h1, h2]
    exact ⟨rfl, rfl⟩

unseal Rat.mul Rat.add Rat.sub Rat.inv in
/-- Counterexample for C3 as stated: the variant provider appended to
PanZoomControl.tsx applies dpr·world in toScreen, so at dpr 2 and world I
the point (1,0) maps to (2,0), not apply(world,(1,0)) = (1,0), and the
result changes when only the dpr changes. -/
theorem toScreen_variant_counterexample :
    varToScreen (varRecomputeMatrices 2 I) ⟨1, 0⟩ ≠ apply I 1 0 ∧
      varToScreen (varRecomputeMatrices 1 I) ⟨1, 0⟩ ≠
        varToScreen (varRecomputeMatrices 2 I) ⟨1, 0⟩ := by
  constructor <;> decide

unseal Rat.mul Rat.add Rat.sub Rat.inv in
/-- Witness for C3 (amended) at dpr 1 and 3, world translate 7 9, point (2,4). -/
theorem toScreen_logical_units_witness :
    invert (translate 7 9) = some ⟨1, 0, 0, 1, -7, -9⟩ ∧
      toScreen (recomputeMatrices 1 (translate 7 9) initMatState) ⟨2, 4⟩ =
        apply (translate 7 9) 2 4 ∧
      toWorld (recomputeMatrices 1 (translate 7 9) initMatState) ⟨2, 4⟩ =
        toWorld (recomputeMatrices 3 (translate 7 9) initMatState) ⟨2, 4⟩ :=
  ⟨by decide,
   (toScreen_logical_units_amended 1 3 (translate 7 9) initMatState initMatState ⟨2, 4⟩).1,
   ((toScreen_logical_units_amended 1 3 (translate 7 9) initMatState initMatState ⟨2, 4⟩).2.2
     ⟨1, 0, 0, 1, -7, -9⟩ (by decide)).2⟩

/-
Zoom anchor and scale magnitude (claims about zoomAtScreen and getScale),
plus the zoom-factor computations of PanZoomControl.tsx.
-/

theorem sqrtAB_eq_zero_iff (m : Matrix) :
    Real.sqrt ((m.a : ℝ) ^ 2 + (m.b : ℝ) ^ 2) = 0 ↔ m.a = 0 ∧ m.b = 0 := by
  rw [Real.sqrt_eq_zero (by positivity)]
  constructor
  · intro h
    have ha : (m.a : ℝ) = 0 ∧ (m.b : ℝ) = 0 := by
      constructor <;> nlinarith [sq_nonneg (m.a : ℝ), sq_nonneg (m.b : ℝ)]
    exact ⟨by exact_mod_cast ha.1, by exact_mod_cast ha.2⟩
  · rintro ⟨ha, hb⟩
    rw [ha, hb]
    norm_num

theorem getScale_of_ne (m : Matrix) (h : ¬(m.a = 0 ∧ m.b = 0)) :
    getScale m = Real.sqrt ((m.a : ℝ) ^ 2 + (m.b : ℝ) ^ 2) := by
  rw [getScale, if_neg (fun hz => h ((sqrtAB_eq_zero_iff m).mp hz))]

theorem getScale_pos (m : Matrix) : 0 < getScale m := by
  rw [getScale]
  split
  · norm_num
  · rename_i h
    exact lt_of_le_of_ne (Real.sqrt_nonneg _) (Ne.symm h)

theorem zoom_ab (cx cy k : ℚ) (w : Matrix) :
    (mul (scaleAt k k cx cy) w).a = k * w.a ∧
      (mul (scaleAt k k cx cy) w).b = k * w.b := by
  simp only [mul, scaleAt, translate, scale]
  constructor <;> ring

theorem scaleAt_fixed_point (k cx cy : ℚ) :
    apply (scaleAt k k cx cy) cx cy = ⟨cx, cy⟩ := by
  simp only [apply, scaleAt, translate, scale, mul, Pt.mk.injEq]
  constructor <;> ring

theorem ab_ne_of_invert {w wi : Matrix} (hw : invert w = some wi) :
    ¬(w.a = 0 ∧ w.b = 0) := by
  rintro ⟨ha, hb⟩
  have hd := det_ne_zero_of_invert hw
  rw [det, ha, hb] at hd
  simp at hd

/-- C1 (amended): for every world matrix accepted by invert (so with
determinant at least 1e-12 in magnitude), every screen point (cx,cy) and
every positive factor k, zoomAtScreen keeps the screen image of the world
point that was under (cx,cy) at exactly (cx,cy), and getScale of the world
matrix changes by exactly the factor k.  (The degeneracy hypothesis is
forced: the getScale fallback of 1 breaks the factor-k clause on the zero
matrix; see the counterexample.) -/
theorem zoom_anchor_and_scale_amended (w wi : Matrix) (cx cy k dpr : ℚ)
    (s : MatState) (hw : invert w = some wi) (hk : 0 < k) :
    apply (zoomAtScreen dpr cx cy k w s).1 (apply wi cx cy).x (apply wi cx cy).y =
        ⟨cx, cy⟩ ∧
      getScale (zoomAtScreen dpr cx cy k w s).1 = (k : ℝ) * getScale w := by
  constructor
  · show apply (mul (scaleAt k k cx cy) w) _ _ = _
    rw [apply_mul, apply_apply_invert hw, scaleAt_fixed_point]
  · show getScale (mul (scaleAt k k cx cy) w) = (k : ℝ) * getScale w
    have hab := ab_ne_of_invert hw
    have hk0 : k ≠ 0 := ne_of_gt hk
    have hab2 : ¬((mul (scaleAt k k cx cy) w).a = 0 ∧ (mul (scaleAt k k cx cy) w).b = 0) := by
      rw [(zoom_ab cx cy k w).1, (zoom_ab cx cy k w).2]
      rintro ⟨ha, hb⟩
      exact hab ⟨by simpa [hk0] using ha, by simpa [hk0] using hb⟩
    rw [getScale_of_ne _ hab2, getScale_of_ne _ hab,
      (zoom_ab cx cy k w).1, (zoom_ab cx cy k w).2]
    have hcast : ((k * w.a : ℚ) : ℝ) ^ 2 + ((k * w.b : ℚ) : ℝ) ^ 2 =
        (k : ℝ) ^ 2 * ((w.a : ℝ) ^ 2 + (w.b : ℝ) ^ 2) := by
      push_cast
      ring
    rw [hcast, Real.sqrt_mul (by positivity), Real.sqrt_sq (by positivity)]

unseal Rat.mul Rat.add Rat.sub Rat.inv in
/-- Counterexample for C1 as stated ("for every world matrix"): on the zero
matrix the getScale fallback returns 1 before and after zooming by k = 2,
so the scale magnitude does not change by the factor 2. -/
theorem zoom_scale_counterexample :
    (0 : ℚ) < 2 ∧
      getScale (zoomAtScreen 1 0 0 2 ⟨0, 0, 0, 0, 0, 0⟩ initMatState).1 ≠
        (2 : ℝ) * getScale ⟨0, 0, 0, 0, 0, 0⟩ := by
  refine ⟨by norm_num, ?_⟩
  have hz : (zoomAtScreen 1 0 0 2 ⟨0, 0, 0, 0, 0, 0⟩ initMatState).1 =
      (⟨0, 0, 0, 0, 0, 0⟩ : Matrix) := by decide
  have h1 : getScale ⟨0, 0, 0, 0, 0, 0⟩ = 1 := by
    simp [getScale]
  rw [hz, h1]
  norm_num

unseal Rat.mul Rat.add Rat.sub Rat.inv in
/-- Witness for C1 (amended) at world scale 2 3, anchor (5,7), factor 2. -/
theorem zoom_anchor_and_scale_witness :
    invert (scale 2 3) = some ⟨1/2, 0, 0, 1/3, 0, 0⟩ ∧ (0 : ℚ) < 2 ∧
      (apply (zoomAtScreen 1 5 7 2 (scale 2 3) initMatState).1
          (apply ⟨1/2, 0, 0, 1/3, 0, 0⟩ 5 7).x (apply ⟨1/2, 0, 0, 1/3, 0, 0⟩ 5 7).y =
          ⟨5, 7⟩ ∧
        getScale (zoomAtScreen 1 5 7 2 (scale 2 3) initMatState).1 =
          (2 : ℝ) * getScale (scale 2 3)) :=
  ⟨by decide, by norm_num,
   zoom_anchor_and_scale_amended (scale 2 3) ⟨1/2, 0, 0, 1/3, 0, 0⟩ 5 7 2 1
     initMatState (by decide) (by norm_num)⟩

/-- PanZoomControl.tsx clamped next scale, the shared shape of the pinch and
ctrl-wheel updates: next = min(maxScale, max(minScale, cur * factor)). -/
noncomputable def clampedNextScale (cur raw minS maxS : ℝ) : ℝ :=
  min maxS (max minS (cur * raw))

/-- PanZoomControl.tsx keyboard plus: next = min(maxScale, cur * 1.1). -/
noncomputable def kbPlusNextScale (cur maxS : ℝ) : ℝ := min maxS (cur * 1.1)

/-- PanZoomControl.tsx keyboard minus: next = max(minScale, cur / 1.1). -/
noncomputable def kbMinusNextScale (cur minS : ℝ) : ℝ := max minS (cur / 1.1)

/-- C10: getScale is strictly positive on every matrix (the JS fallback
makes a zero first column give 1), so each next/cur zoom-factor computation
of the controller divides by a nonzero value and produces a positive,
finite factor. -/
theorem getScale_positive_factors :
    (∀ m : Matrix, 0 < getScale m ∧ getScale m ≠ 0) ∧
      (∀ (m : Matrix) (raw minS maxS : ℝ), 0 < minS → minS ≤ maxS →
        0 < clampedNextScale (getScale m) raw minS maxS / getScale m) ∧
      (∀ (m : Matrix) (maxS : ℝ), 0 < maxS →
        0 < kbPlusNextScale (getScale m) maxS / getScale m) ∧
      (∀ (m : Matrix) (minS : ℝ), 0 < minS →
        0 < kbMinusNextScale (getScale m) minS / getScale m) := by
  refine ⟨fun m => ⟨getScale_pos m, ne_of_gt (getScale_pos m)⟩, ?_, ?_, ?_⟩
  · intro m raw minS maxS h1 h2
    apply div_pos _ (getScale_pos m)
    rw [clampedNextScale]
    exact lt_min (lt_of_lt_of_le h1 h2) (lt_max_of_lt_left h1)
  · intro m maxS h1
    apply div_pos _ (getScale_pos m)
    rw [kbPlusNextScale]
    exact lt_min h1 (by nlinarith [getScale_pos m])
  · intro m minS h1
    apply div_pos _ (getScale_pos m)
    rw [kbMinusNextScale]
    exact lt_max_of_lt_left h1

/-- Witness for C10 at the identity matrix and the controller defaults
minScale 0.02, maxScale 4096. -/
theorem getScale_positive_factors_witness :
    (0 : ℝ) < 1/50 ∧ (1/50 : ℝ) ≤ 4096 ∧
      0 < clampedNextScale (getScale I) 1 (1/50) 4096 / getScale I :=
  ⟨by norm_num, by norm_num,
   getScale_positive_factors.2.1 I 1 (1/50) 4096 (by norm_num) (by norm_num)⟩

/-
Render-loop model.  CanvasProvider.tsx drawFrame runs the tickers, folds in
the dirty flag, and either redraws and schedules the next frame or stops the
loop (running := false, no reschedule).  scheduleRedraw sets the dirty flag
and ensures the loop runs.  The historical provider of part_003 has a frame
callback that reschedules unconditionally on every invocation.
-/

/-- Observable loop state of CanvasProvider.tsx: the dirty flag, the
running flag, and a count of performed redraws. -/
structure LoopState where
  dirty : Bool
  running : Bool
  redraws : ℕ
deriving DecidableEq, Repr

/-- One invocation of CanvasProvider.tsx drawFrame, with the boolean
results of this frame's ticker calls passed as a list (empty = no
registered tickers): need is any-ticker-true or dirty, dirty is cleared,
and the frame either redraws and reschedules or stops the loop. -/
def drawFrameStep (tick : List Bool) (s : LoopState) : LoopState :=
  let need := tick.any (fun b => b) || s.dirty
  if need then ⟨false, true, s.redraws + 1⟩ else ⟨false, false, s.redraws⟩

/-- CanvasProvider.tsx scheduleRedraw: mark dirty and ensure the loop runs. -/
def scheduleRedraw (s : LoopState) : LoopState := ⟨true, true, s.redraws⟩

/-- State of the part_003 provider's frame callback: whether the 2d context
is available, the last timestamp, and a count of executed frame bodies. -/
structure P3State where
  ctxPresent : Bool
  lastTs : Option ℚ
  frames : ℕ
deriving DecidableEq, Repr

/-- One invocation of the part_003 frame callback: when the context is
missing it reschedules and returns; otherwise it updates the timestamp,
runs tickers and drawers, and reschedules.  The returned boolean is whether
another animation frame was requested — it is true on every path. -/
def p3Frame (ts : ℚ) (s : P3State) : P3State × Bool :=
  if s.ctxPresent = false then (s, true)
  else ({ s with lastTs := some ts, frames := s.frames + 1 }, true)

theorem drawFrameStep_idle (m : ℕ) :
    drawFrameStep [] ⟨false, false, m⟩ = ⟨false, false, m⟩ := rfl

theorem drawFrameStep_iterate_idle (j m : ℕ) :
    (drawFrameStep [])^[j] ⟨false, false, m⟩ = ⟨false, false, m⟩ := by
  induction j with
  | zero => rfl
  | succ n ih => rw [Function.iterate_succ_apply, drawFrameStep_idle, ih]

/-- C2: after a single mutation (scheduleRedraw) with no registered
tickers, the primary provider's loop performs exactly one more redraw and
then stops: from the second frame on, the state is permanently not-running
with the redraw count increased by exactly one.  A frame that starts with a
clear dirty flag and no ticker reporting change stops the loop and draws
nothing.  The part_003 historical frame callback instead requests another
animation frame on every invocation — it never stops. -/
theorem dirty_loop_termination_and_p3 :
    (∀ (s : LoopState) (k : ℕ), 2 ≤ k →
        (drawFrameStep [])^[k] (scheduleRedraw s) = ⟨false, false, s.redraws + 1⟩) ∧
      (∀ s : LoopState, s.dirty = false →
        (drawFrameStep [] s).running = false ∧
          (drawFrameStep [] s).redraws = s.redraws) ∧
      (∀ (ts : ℚ) (s : P3State), (p3Frame ts s).2 = true) := by
  refine ⟨?_, ?_, ?_⟩
  · intro s k hk
    obtain ⟨j, rfl⟩ : ∃ j, k = 2 + j := ⟨k - 2, by omega⟩
    rw [add_comm, Function.iterate_add_apply]
    have h2 : (drawFrameStep [])^[2] (scheduleRedraw s) =
        ⟨false, false, s.redraws + 1⟩ := rfl
    rw [h2, drawFrameStep_iterate_idle]
  · intro s hs
    rw [drawFrameStep]
    simp [hs]
  · intro ts s
    rw [p3Frame]
    split <;> rfl

/-- Witness for C2 at the empty idle state and k = 2. -/
theorem dirty_loop_witness :
    2 ≤ 2 ∧
      (drawFrameStep [])^[2] (scheduleRedraw ⟨false, false, 0⟩) =
        ⟨false, false, 1⟩ :=
  ⟨by decide, dirty_loop_termination_and_p3.1 ⟨false, false, 0⟩ 2 (by decide)⟩

/-
Inverse retention (C6).  Every view mutation of CanvasProvider.tsx funnels
through recomputeMatrices with some (dpr, world) pair, so arbitrary
mutation histories are modelled as a list of such pairs folded over the
initial state.
-/

/-- Fold an arbitrary sequence of recomputeMatrices calls (one per view
mutation: setWorld, pan, zoom, reset, fit) over a provider state. -/
def runRecomputes (steps : List (ℚ × Matrix)) (s : MatState) : MatState :=
  steps.foldl (fun st p => recomputeMatrices p.1 p.2 st) s

theorem recompute_worldFromCss_none {w : Matrix} (dpr : ℚ) (s : MatState)
    (h : invert w = none) :
    (recomputeMatrices dpr w s).worldFromCss = s.worldFromCss := by
  rw [recompute_worldFromCss, h]

theorem runRecomputes_invariant :
    ∀ (steps : List (ℚ × Matrix)) (s : MatState),
      (s.worldFromCss = I ∨ ∃ w : Matrix, invert w = some s.worldFromCss) →
      ((runRecomputes steps s).worldFromCss = I ∨
        ∃ w : Matrix, invert w = some (runRecomputes steps s).worldFromCss) := by
  intro steps
  induction steps with
  | nil => intro s hs; exact hs
  | cons p rest ih =>
    intro s hs
    show ((runRecomputes rest (recomputeMatrices p.1 p.2 s)).worldFromCss = I ∨ _)
    apply ih
    cases h : invert p.2 with
    | some iw =>
      right
      refine ⟨p.2, ?_⟩
      rw [recompute_worldFromCss, h]
    | none =>
      rw [recompute_worldFromCss_none p.1 s h]
      exact hs

/-- C6: the primary provider retains the last valid inverse — a failed
inversion leaves worldFromCss untouched, and after any sequence of view
mutations worldFromCss is the initial identity or an inverse actually
produced by invert (hence finite).  The variant provider appended to
PanZoomControl.tsx instead stores the raw invert result: on a degenerate
world it overwrites its worldFromScreen ref with the failure value (null),
and the subsequent conversion dereferences it. -/
theorem inverse_retention_and_variant_failure :
    (∀ (dpr : ℚ) (w : Matrix) (s : MatState), invert w = none →
        (recomputeMatrices dpr w s).worldFromCss = s.worldFromCss) ∧
      (∀ steps : List (ℚ × Matrix),
        (runRecomputes steps initMatState).worldFromCss = I ∨
          ∃ w : Matrix, invert w = some (runRecomputes steps initMatState).worldFromCss) ∧
      ((varRecomputeMatrices 1 ⟨0, 0, 0, 0, 0, 0⟩).worldFromScreen = none ∧
        varToWorld (varRecomputeMatrices 1 ⟨0, 0, 0, 0, 0, 0⟩) ⟨3, 4⟩ = none) := by
  refine ⟨fun dpr w s h => recompute_worldFromCss_none dpr s h, ?_, ?_⟩
  · intro steps
    exact runRecomputes_invariant steps initMatState (Or.inl rfl)
  · constructor
    · show invert (mul (dprScale 1) ⟨0, 0, 0, 0, 0, 0⟩) = none
      rw [invert_eq_none_iff]
      norm_num [mul, dprScale, det]
    · rw [varToWorld]
      show (invert (mul (dprScale 1) ⟨0, 0, 0, 0, 0, 0⟩)).map _ = none
      rw [show invert (mul (dprScale 1) ⟨0, 0, 0, 0, 0, 0⟩) = none from by
        rw [invert_eq_none_iff]; norm_num [mul, dprScale, det]]
      rfl

/-- Witness for C6: a recompute with the zero world matrix (invert fails)
keeps the identity inverse of the initial state. -/
theorem inverse_retention_witness :
    invert ⟨0, 0, 0, 0, 0, 0⟩ = none ∧
      (recomputeMatrices 1 ⟨0, 0, 0, 0, 0, 0⟩ initMatState).worldFromCss =
        initMatState.worldFromCss :=
  ⟨by rw [invert_eq_none_iff]; norm_num [det],
   inverse_retention_and_variant_failure.1 1 ⟨0, 0, 0, 0, 0, 0⟩ initMatState
     (by rw [invert_eq_none_iff]; norm_num [det])⟩

/-
Nice decimal step (C7), from TrigonometricalGrid.tsx pickNiceStep (the
pickNiceStep of the MathGrid in Grid.tsx is textually identical).  The
source clamps with Math.max(1e-12, _) twice, takes
p10 = 10^floor(log10(unitsPerTarget)), and scans k = -1..3 over the
candidate multipliers keeping the step whose pixel spacing is strictly
closer to the target (initial bestDiff = Infinity, modelled as none).
-/

/-- pickNiceStep candidate multipliers. -/
def candidates : List ℚ := [1, 2, 5/2, 5, 10]

/-- pickNiceStep exponent window, the outer loop k = -1..3. -/
def nsKs : List ℤ := [-1, 0, 1, 2, 3]

/-- Iteration order of the two nested loops: k outer, candidate inner. -/
def nsPairs : List (ℤ × ℚ) := nsKs.bind (fun k => candidates.map (fun c => (k, c)))

/-- The step c * p10 * 10^k formed in the inner loop body. -/
def nsStep (p10 : ℚ) (kc : ℤ × ℚ) : ℚ := kc.2 * p10 * (10 : ℚ) ^ kc.1

/-- The diff |step * pxPerUnit - targetPx| of the inner loop body. -/
def nsDiff (pxPerUnit targetPx s : ℚ) : ℚ := |s * pxPerUnit - targetPx|

/-- One inner-loop update of (best, bestDiff); bestDiff none models the
initial Infinity, against which any diff compares strictly smaller. -/
def nsUpd (pxPerUnit targetPx p10 : ℚ) (acc : ℚ × Option ℚ) (kc : ℤ × ℚ) :
    ℚ × Option ℚ :=
  match acc.2 with
  | none => (nsStep p10 kc, some (nsDiff pxPerUnit targetPx (nsStep p10 kc)))
  | some bd =>
    if nsDiff pxPerUnit targetPx (nsStep p10 kc) < bd then
      (nsStep p10 kc, some (nsDiff pxPerUnit targetPx (nsStep p10 kc)))
    else acc

/-- The candidate scan of pickNiceStep for a given p10: best of the
candidate steps by pixel-spacing distance to targetPx, starting from
candidates[0] * p10 with bestDiff Infinity. -/
def pickNiceStepAux (pxPerUnit targetPx p10 : ℚ) : ℚ :=
  (nsPairs.foldl (nsUpd pxPerUnit targetPx p10) (candidates.headI * p10, none)).1

/-- TrigonometricalGrid.tsx pickNiceStep: clamp unitsPerTarget, take
p10 = 10^floor(log10 unitsPerTarget), scan the candidates. -/
def pickNiceStep (pxPerUnit targetPx : ℚ) : ℚ :=
  pickNiceStepAux pxPerUnit targetPx
    ((10 : ℚ) ^ Int.log 10 (max (1/10^12) (targetPx / max (1/10^12) pxPerUnit)))

theorem nsFold_spec (p t p10 : ℚ) :
    ∀ (l : List (ℤ × ℚ)) (b d : ℚ), d = nsDiff p t b →
      nsDiff p t (l.foldl (nsUpd p t p10) (b, some d)).1 ≤ d ∧
        ((l.foldl (nsUpd p t p10) (b, some d)).1 = b ∨
          ∃ kc ∈ l, (l.foldl (nsUpd p t p10) (b, some d)).1 = nsStep p10 kc) ∧
        ∀ kc ∈ l,
          nsDiff p t (l.foldl (nsUpd p t p10) (b, some d)).1 ≤
            nsDiff p t (nsStep p10 kc) := by
  intro l
  induction l with
  | nil =>
    intro b d hd
    refine ⟨le_of_eq hd.symm, Or.inl rfl, ?_⟩
    intro kc hkc
    exact absurd hkc (List.not_mem_nil kc)
  | cons kc rest ih =>
    intro b d hd
    rw [List.foldl_cons]
    by_cases hlt : nsDiff p t (nsStep p10 kc) < d
    · have hupd : nsUpd p t p10 (b, some d) kc =
          (nsStep p10 kc, some (nsDiff p t (nsStep p10 kc))) := by
        rw [nsUpd]
        simp [hlt]
      rw [hupd]
      obtain ⟨hle, hmem, hall⟩ := ih (nsStep p10 kc) (nsDiff p t (nsStep p10 kc)) rfl
      refine ⟨le_of_lt (lt_of_le_of_lt hle hlt), ?_, ?_⟩
      · rcases hmem with h | ⟨kc2, hkc2, h⟩
        · exact Or.inr ⟨kc, List.mem_cons_self kc rest, h⟩
        · exact Or.inr ⟨kc2, List.mem_cons_of_mem kc hkc2, h⟩
      · intro kc2 hkc2
        rcases List.mem_cons.mp hkc2 with rfl | h
        · exact hle
        · exact hall kc2 h
    · have hupd : nsUpd p t p10 (b, some d) kc = (b, some d) := by
        rw [nsUpd]
        simp [hlt]
      rw [hupd]
      obtain ⟨hle, hmem, hall⟩ := ih b d hd
      refine ⟨hle, ?_, ?_⟩
      · rcases hmem with h | ⟨kc2, hkc2, h⟩
        · exact Or.inl h
        · exact Or.inr ⟨kc2, List.mem_cons_of_mem kc hkc2, h⟩
      · intro kc2 hkc2
        rcases List.mem_cons.mp hkc2 with rfl | h
        · exact le_trans hle (le_of_not_lt hlt)
        · exact hall kc2 h

theorem nsFold_none_spec (p t p10 : ℚ) (kc0 : ℤ × ℚ) (rest : List (ℤ × ℚ)) (b : ℚ) :
    (∃ kc ∈ kc0 :: rest,
        ((kc0 :: rest).foldl (nsUpd p t p10) (b, none)).1 = nsStep p10 kc) ∧
      ∀ kc ∈ kc0 :: rest,
        nsDiff p t (((kc0 :: rest).foldl (nsUpd p t p10) (b, none)).1) ≤
          nsDiff p t (nsStep p10 kc) := by
  rw [List.foldl_cons]
  have hupd : nsUpd p t p10 (b, none) kc0 =
      (nsStep p10 kc0, some (nsDiff p t (nsStep p10 kc0))) := by
    rw [nsUpd]
  rw [hupd]
  obtain ⟨hle, hmem, hall⟩ := nsFold_spec p t p10 rest (nsStep p10 kc0)
    (nsDiff p t (nsStep p10 kc0)) rfl
  constructor
  · rcases hmem with h | ⟨kc2, hkc2, h⟩
    · exact ⟨kc0, List.mem_cons_self kc0 rest, h⟩
    · exact ⟨kc2, List.mem_cons_of_mem kc0 hkc2, h⟩
  · intro kc2 hkc2
    rcases List.mem_cons.mp hkc2 with rfl | h
    · exact hle
    · exact hall kc2 h

theorem nsPairs_snd_mem {kc : ℤ × ℚ} (h : kc ∈ nsPairs) : kc.2 ∈ candidates := by
  rw [nsPairs, List.mem_bind] at h
  obtain ⟨k, -, hkc⟩ := h
  rw [List.mem_map] at hkc
  obtain ⟨c, hc, rfl⟩ := hkc
  exact hc

/-- C7 (amended): when the two 1e-12 clamps are inactive — pixelsPerUnit at
least 1e-12 and at most targetPx·1e12 — and targetPx lies in [20,300], the
chosen step belongs to the candidate family {1,2,2.5,5,10}·10^m and its
pixel spacing lies within the claimed 0.4x..2.5x band of targetPx (the
proof yields the tighter 0.5x..1.5x band). -/
theorem pickNiceStep_bounds_amended (p t : ℚ)
    (hp : 1/10^12 ≤ p) (hpt : p ≤ t * 10^12) (ht : 20 ≤ t) (ht2 : t ≤ 300) :
    (∃ c ∈ candidates, ∃ m : ℤ, pickNiceStep p t = c * 10 ^ m) ∧
      (2/5) * t ≤ pickNiceStep p t * p ∧ pickNiceStep p t * p ≤ (5/2) * t := by
  have hp0 : 0 < p := lt_of_lt_of_le (by norm_num) hp
  have ht0 : 0 < t := by linarith
  have hmax1 : max ((1:ℚ)/10^12) p = p := max_eq_right hp
  have hu12 : (1:ℚ)/10^12 ≤ t / p := by
    rw [le_div_iff hp0]
    nlinarith
  have hmax2 : max ((1:ℚ)/10^12) (t / p) = t / p := max_eq_right hu12
  have hu0 : 0 < t / p := div_pos ht0 hp0
  have hple := Int.zpow_log_le_self (b := 10) (R := ℚ) (by norm_num) hu0
  have hlt10 := Int.lt_zpow_succ_log_self (b := 10) (R := ℚ) (by norm_num) (t / p)
  rw [zpow_add_one₀ (by norm_num)] at hlt10
  push_cast at hple hlt10
  set L : ℤ := Int.log 10 (t / p) with hL
  set p10 : ℚ := (10 : ℚ) ^ L with hp10def
  have hp10pos : 0 < p10 := zpow_pos (by norm_num) L
  have hups : pickNiceStep p t =
      (nsPairs.foldl (nsUpd p t p10) (candidates.headI * p10, none)).1 := by
    rw [pickNiceStep, hmax1, hmax2, ← hL, ← hp10def, pickNiceStepAux]
  set r : ℚ := (t / p) / p10 with hrdef
  have hr1 : 1 ≤ r := (one_le_div hp10pos).mpr hple
  have hr10 : r < 10 := by
    rw [hrdef, div_lt_iff hp10pos]
    linarith
  have hT : t = (t / p) * p := (div_mul_cancel₀ t (ne_of_gt hp0)).symm
  have hU : t / p = r * p10 := (div_mul_cancel₀ (t / p) (ne_of_gt hp10pos)).symm
  have key : ∀ c : ℚ, |c - r| ≤ r / 2 →
      nsDiff p t (nsStep p10 ((0 : ℤ), c)) ≤ t / 2 := by
    intro c habs
    have h1 : nsStep p10 ((0 : ℤ), c) = c * p10 := by
      rw [nsStep]
      norm_num
    have h2 : nsDiff p t (c * p10) = |c - r| * p10 * p := by
      rw [nsDiff]
      have : c * p10 * p - t = (c - r) * p10 * p := by
        rw [hT, hU]
        ring
      rw [this, abs_mul, abs_mul, abs_of_pos hp10pos, abs_of_pos hp0]
    rw [h1, h2]
    calc |c - r| * p10 * p ≤ (r / 2) * p10 * p := by
          apply mul_le_mul_of_nonneg_right _ hp0.le
          exact mul_le_mul_of_nonneg_right habs hp10pos.le
      _ = t / 2 := by
          rw [hT, hU]
          ring
  have hgood : ∃ c : ℚ, ((0 : ℤ), c) ∈ nsPairs ∧
      nsDiff p t (nsStep p10 ((0 : ℤ), c)) ≤ t / 2 := by
    rcases le_or_lt r 2 with h2 | h2
    · refine ⟨1, by norm_num [nsPairs, nsKs, candidates], key 1 ?_⟩
      rw [abs_sub_comm, abs_of_nonneg (by linarith)]
      linarith
    · rcases le_or_lt r 4 with h4 | h4
      · refine ⟨2, by norm_num [nsPairs, nsKs, candidates], key 2 ?_⟩
        rw [abs_sub_comm, abs_of_nonneg (by linarith)]
        linarith
      · rcases le_or_lt r 5 with h5 | h5
        · refine ⟨5/2, by norm_num [nsPairs, nsKs, candidates], key (5/2) ?_⟩
          rw [abs_sub_comm, abs_of_nonneg (by linarith)]
          linarith
        · refine ⟨5, by norm_num [nsPairs, nsKs, candidates], key 5 ?_⟩
          rw [abs_sub_comm, abs_of_nonneg (by linarith)]
          linarith
  obtain ⟨hmem, hall⟩ := nsFold_none_spec p t p10 (-1, 1)
    (nsPairs.tail) (candidates.headI * p10)
  have hcons : ((-1 : ℤ), (1 : ℚ)) :: nsPairs.tail = nsPairs := rfl
  rw [hcons] at hmem hall
  rw [← hups] at hmem hall
  constructor
  · obtain ⟨kc, hkc, heq⟩ := hmem
    refine ⟨kc.2, nsPairs_snd_mem hkc, L + kc.1, ?_⟩
    rw [heq, nsStep, hp10def, zpow_add₀ (by norm_num : (10:ℚ) ≠ 0)]
    ring
  · obtain ⟨c, hcmem, hcgood⟩ := hgood
    have hbest : nsDiff p t (pickNiceStep p t) ≤ t / 2 :=
      le_trans (hall _ hcmem) hcgood
    rw [nsDiff] at hbest
    obtain ⟨hlo, hhi⟩ := abs_le.mp hbest
    constructor <;> linarith

unseal Rat.mul Rat.add Rat.sub Rat.inv in
/-- Counterexample for C7 as stated ("for every pixelsPerUnit > 0"): at
pixelsPerUnit = 10^16 and targetPx = 100 the 1e-12 clamp freezes
unitsPerTarget at 1e-12, the candidate window bottoms out at step 1e-13,
and the resulting pixel spacing is 1000 px — ten times the target, far
outside the claimed 2.5x bound. -/
theorem pickNiceStep_counterexample :
    (0 : ℚ) < 10 ^ 16 ∧ (20 : ℚ) ≤ 100 ∧ (100 : ℚ) ≤ 300 ∧
      ¬(pickNiceStep (10 ^ 16) 100 * 10 ^ 16 ≤ (5/2) * 100) := by
  have hlog : Int.log 10 ((1 : ℚ)/10^12) = -12 := by
    have h1 := Int.log_zpow (R := ℚ) (b := 10) (by norm_num) (-12)
    have h2 : ((10 : ℕ) : ℚ) ^ (-12 : ℤ) = (1 : ℚ)/10^12 := by
      rw [zpow_neg]
      norm_num
    rw [h2] at h1
    exact_mod_cast h1
  have heval : pickNiceStep ((10 : ℚ) ^ 16) 100 = 1/10^13 := by
    rw [pickNiceStep]
    rw [show max ((1:ℚ)/10^12) ((10:ℚ)^16) = (10:ℚ)^16 from max_eq_right (by norm_num)]
    rw [show (100 : ℚ) / (10:ℚ)^16 = 1/10^14 from by norm_num]
    rw [show max ((1:ℚ)/10^12) ((1:ℚ)/10^14) = (1:ℚ)/10^12 from max_eq_left (by norm_num)]
    rw [hlog]
    decide
  refine ⟨by norm_num, by norm_num, by norm_num, ?_⟩
  rw [heval]
  norm_num

/-- Witness for C7 (amended) at pixelsPerUnit 1, targetPx 100. -/
theorem pickNiceStep_witness :
    (1/10^12 : ℚ) ≤ 1 ∧ (1 : ℚ) ≤ 100 * 10^12 ∧ (20 : ℚ) ≤ 100 ∧ (100 : ℚ) ≤ 300 ∧
      ((2/5) * 100 ≤ pickNiceStep 1 100 * 1 ∧ pickNiceStep 1 100 * 1 ≤ (5/2) * 100) :=
  ⟨by norm_num, by norm_num, by norm_num, by norm_num,
   (pickNiceStep_bounds_amended 1 100 (by norm_num) (by norm_num) (by norm_num)
     (by norm_num)).2⟩

/-
Radian fraction formatting (C9), from TrigonometricalGrid.tsx fmtRadian
and gcd.  The input x is divided by pi, each denominator d of
{1,2,4,8,16,32,64} proposes the rounded numerator n = round(t*d), the
denominator with the strictly smallest residual wins, and the kept fraction
is reduced by the gcd and rendered.
-/

/-- TrigonometricalGrid.tsx gcd: Euclid on absolute values, with the JS
`|| 1` fallback turning gcd(0,0) into 1. -/
def jsGcd (a b : ℤ) : ℤ :=
  if (Int.gcd a b : ℤ) = 0 then 1 else (Int.gcd a b : ℤ)

/-- The reduced numerator/denominator pair nn = n/g, dd = d/g used by
fmtRadian's update branch (divisions are exact). -/
def renderParts (n d : ℤ) : ℤ × ℤ := (n / jsGcd n d, d / jsGcd n d)

/-- The string fmtRadian builds from rounded numerator n and denominator d:
"0", "±Nπ" or "±Nπ/D", with coefficient 1 omitted. -/
def renderFrac (n d : ℤ) : String :=
  let nn := (renderParts n d).1
  let dd := (renderParts n d).2
  let sign := if nn < 0 then "-" else ""
  let na := |nn|
  if na = 0 then "0"
  else if dd = 1 then
    (if na = 1 then sign ++ "π" else sign ++ toString na ++ "π")
  else
    sign ++ (if na = 1 then "" else toString na) ++ "π/" ++ toString dd

/-- The denominators fmtRadian tests. -/
def fmtDenoms : List ℕ := [1, 2, 4, 8, 16, 32, 64]

/-- One iteration of fmtRadian's denominator loop: round t*d, keep the
fraction on strict residual improvement (none is the initial Infinity). -/
noncomputable def fmtStep (t : ℝ) (acc : String × Option ℝ) (d : ℕ) :
    String × Option ℝ :=
  match acc.2 with
  | none => (renderFrac (round (t * d)) d, some |((round (t * d) : ℤ) : ℝ) / d - t|)
  | some bd =>
    if |((round (t * d) : ℤ) : ℝ) / d - t| < bd then
      (renderFrac (round (t * d)) d, some |((round (t * d) : ℤ) : ℝ) / d - t|)
    else acc

/-- fmtRadian's denominator scan on t = x/pi, starting from bestStr = ""
and bestDiff = Infinity. -/
noncomputable def fmtRadianAux (t : ℝ) : String :=
  (fmtDenoms.foldl (fmtStep t) ("", none)).1

/-- TrigonometricalGrid.tsx fmtRadian.  The isFinite guard of the source is
vacuous over ℝ; below the 1e-9 threshold the result is "0". -/
noncomputable def fmtRadian (x : ℝ) : String :=
  if |x| < 1/10^9 then "0" else fmtRadianAux (x / Real.pi)

/-- Computable rational mirror of fmtStep, used to evaluate the scan at
the concrete rational values of t produced by the claimed inputs. -/
def fmtStepQ (t : ℚ) (acc : String × Option ℚ) (d : ℕ) : String × Option ℚ :=
  match acc.2 with
  | none => (renderFrac (round (t * d)) d, some |((round (t * d) : ℤ) : ℚ) / d - t|)
  | some bd =>
    if |((round (t * d) : ℤ) : ℚ) / d - t| < bd then
      (renderFrac (round (t * d)) d, some |((round (t * d) : ℤ) : ℚ) / d - t|)
    else acc

/-- Computable rational mirror of fmtRadianAux. -/
def fmtRadianAuxQ (t : ℚ) : String :=
  (fmtDenoms.foldl (fmtStepQ t) ("", none)).1

theorem fmtStep_cast (q : ℚ) (s : String) (ob : Option ℚ) (d : ℕ) :
    fmtStep (q : ℝ) (s, ob.map (fun r : ℚ => (r : ℝ))) d =
      ((fmtStepQ q (s, ob) d).1,
        (fmtStepQ q (s, ob) d).2.map (fun r : ℚ => (r : ℝ))) := by
  have hr : round ((q : ℝ) * (d : ℕ)) = round (q * (d : ℕ) : ℚ) := by
    rw [show ((q : ℝ) * (d : ℕ)) = ((q * (d : ℕ) : ℚ) : ℝ) from by push_cast; ring,
      Rat.round_cast]
  have habs : |((round (q * (d : ℕ) : ℚ) : ℤ) : ℝ) / (d : ℕ) - (q : ℝ)| =
      ((|((round (q * (d : ℕ) : ℚ) : ℤ) : ℚ) / (d : ℕ) - q| : ℚ) : ℝ) := by
    push_cast
    ring_nf
  cases ob with
  | none =>
    simp only [fmtStep, fmtStepQ, Option.map, hr, habs]
  | some bd =>
    simp only [fmtStep, fmtStepQ, Option.map, hr, habs]
    by_cases hc : |((round (q * (d : ℕ) : ℚ) : ℤ) : ℚ) / (d : ℕ) - q| < bd
    · rw [if_pos (Rat.cast_lt.mpr hc), if_pos hc]
    · rw [if_neg (fun h => hc (Rat.cast_lt.mp h)), if_neg hc]

theorem fmtFold_cast (q : ℚ) :
    ∀ (l : List ℕ) (s : String) (ob : Option ℚ),
      l.foldl (fmtStep (q : ℝ)) (s, ob.map (fun r : ℚ => (r : ℝ))) =
        ((l.foldl (fmtStepQ q) (s, ob)).1,
          (l.foldl (fmtStepQ q) (s, ob)).2.map (fun r : ℚ => (r : ℝ))) := by
  intro l
  induction l with
  | nil => intro s ob; rfl
  | cons d rest ih =>
    intro s ob
    rw [List.foldl_cons, List.foldl_cons, fmtStep_cast]
    have := ih (fmtStepQ q (s, ob) d).1 (fmtStepQ q (s, ob) d).2
    simpa using this

theorem fmtRadianAux_cast (q : ℚ) : fmtRadianAux (q : ℝ) = fmtRadianAuxQ q := by
  rw [fmtRadianAux, fmtRadianAuxQ]
  simpa using congrArg Prod.fst (fmtFold_cast q fmtDenoms "" none)

theorem fmtFold_mem (t : ℝ) :
    ∀ (l : List ℕ) (s : String) (ob : Option ℝ),
      (l.foldl (fmtStep t) (s, ob)).1 = s ∨
        ∃ d ∈ l, (l.foldl (fmtStep t) (s, ob)).1 = renderFrac (round (t * d)) d := by
  intro l
  induction l with
  | nil => intro s ob; exact Or.inl rfl
  | cons d rest ih =>
    intro s ob
    rw [List.foldl_cons]
    have hstep : (fmtStep t (s, ob) d).1 = s ∨
        (fmtStep t (s, ob) d).1 = renderFrac (round (t * d)) d := by
      cases ob with
      | none => exact Or.inr rfl
      | some bd =>
        by_cases hc : |((round (t * d) : ℤ) : ℝ) / d - t| < bd
        · right
          rw [fmtStep]
          simp [hc]
        · left
          rw [fmtStep]
          simp [hc]
    obtain h | ⟨d2, hd2, h⟩ :=
      ih (fmtStep t (s, ob) d).1 (fmtStep t (s, ob) d).2
    · rw [show ((fmtStep t (s, ob) d).1, (fmtStep t (s, ob) d).2) =
          fmtStep t (s, ob) d from rfl] at h
      rcases hstep with h2 | h2
      · exact Or.inl (h.trans h2)
      · exact Or.inr ⟨d, List.mem_cons_self d rest, h.trans h2⟩
    · rw [show ((fmtStep t (s, ob) d).1, (fmtStep t (s, ob) d).2) =
          fmtStep t (s, ob) d from rfl] at h
      exact Or.inr ⟨d2, List.mem_cons_of_mem d hd2, h⟩

theorem fmtRadianAux_mem (t : ℝ) :
    ∃ d ∈ fmtDenoms, fmtRadianAux t = renderFrac (round (t * d)) d := by
  rw [fmtRadianAux]
  rw [show fmtDenoms = 1 :: [2, 4, 8, 16, 32, 64] from rfl, List.foldl_cons]
  obtain h | ⟨d2, hd2, h⟩ := fmtFold_mem t [2, 4, 8, 16, 32, 64]
    (fmtStep t ("", none) 1).1 (fmtStep t ("", none) 1).2
  · exact ⟨1, by norm_num [fmtDenoms], h⟩
  · exact ⟨d2, List.mem_cons_of_mem 1 hd2, h⟩

theorem renderParts_coprime (n d : ℤ) (hd : 0 < d) :
    Int.gcd (renderParts n d).1 (renderParts n d).2 = 1 := by
  have hg0 : Int.gcd n d ≠ 0 := by
    intro h
    rw [Int.gcd_eq_zero_iff] at h
    exact (ne_of_gt hd) h.2
  rw [renderParts, jsGcd, if_neg (by exact_mod_cast hg0)]
  exact Int.gcd_div_gcd_div_gcd (Nat.pos_of_ne_zero hg0)

unseal Rat.mul Rat.add Rat.sub Rat.inv in
/-- C9: the claimed concrete renderings all hold (0 ↦ "0", π ↦ "π",
π/2 ↦ "π/2", -3π/2 ↦ "-3π/2", 2π ↦ "2π"); for every input the scan's
output is the rendering of round(t·d) over some denominator d of
{1,2,4,8,16,32,64}; and the rendered fraction is always reduced by the
greatest common divisor. -/
theorem fmtRadian_spec :
    fmtRadian 0 = "0" ∧ fmtRadian Real.pi = "π" ∧
      fmtRadian (Real.pi / 2) = "π/2" ∧
      fmtRadian (-(3 * Real.pi) / 2) = "-3π/2" ∧
      fmtRadian (2 * Real.pi) = "2π" ∧
      (∀ t : ℝ, ∃ d ∈ fmtDenoms, fmtRadianAux t = renderFrac (round (t * d)) d) ∧
      (∀ n d : ℤ, 0 < d → Int.gcd (renderParts n d).1 (renderParts n d).2 = 1) := by
  have hpi3 := Real.pi_gt_three
  refine ⟨?_, ?_, ?_, ?_, ?_, fmtRadianAux_mem, fun n d hd => renderParts_coprime n d hd⟩
  · rw [fmtRadian, if_pos (by norm_num)]
  · rw [fmtRadian, if_neg (by rw [abs_of_pos Real.pi_pos]; intro h; nlinarith)]
    rw [div_self Real.pi_ne_zero,
      show (1 : ℝ) = ((1 : ℚ) : ℝ) from by norm_num, fmtRadianAux_cast]
    decide
  · rw [fmtRadian, if_neg (by
      rw [abs_of_pos (by positivity : (0:ℝ) < Real.pi / 2)]
      intro h
      nlinarith)]
    rw [show Real.pi / 2 / Real.pi = ((1/2 : ℚ) : ℝ) from by
      rw [show ((1/2 : ℚ) : ℝ) = 1/2 from by norm_num]
      rw [div_eq_div_iff Real.pi_ne_zero (by norm_num : (2:ℝ) ≠ 0)]
      ring]
    rw [fmtRadianAux_cast]
    decide
  · rw [fmtRadian, if_neg (by
      rw [show (-(3 * Real.pi) / 2 : ℝ) = -(3 * Real.pi / 2) from by ring, abs_neg,
        abs_of_pos (by positivity : (0:ℝ) < 3 * Real.pi / 2)]
      intro h
      nlinarith)]
    rw [show -(3 * Real.pi) / 2 / Real.pi = ((-3/2 : ℚ) : ℝ) from by
      rw [show ((-3/2 : ℚ) : ℝ) = -3/2 from by norm_num]
      rw [div_eq_div_iff Real.pi_ne_zero (by norm_num : (2:ℝ) ≠ 0)]
      ring]
    rw [fmtRadianAux_cast]
    decide
  · rw [fmtRadian, if_neg (by
      rw [abs_of_pos (by positivity : (0:ℝ) < 2 * Real.pi)]
      intro h
      nlinarith)]
    rw [show 2 * Real.pi / Real.pi = ((2 : ℚ) : ℝ) from by
      rw [show ((2 : ℚ) : ℝ) = 2 from by norm_num,
        mul_div_assoc, div_self Real.pi_ne_zero, mul_one]]
    rw [fmtRadianAux_cast]
    decide

/-- Witness for C9's reduced-fraction clause at n = -3, d = 2. -/
theorem fmtRadian_witness :
    (0 : ℤ) < 2 ∧ Int.gcd (renderParts (-3) 2).1 (renderParts (-3) 2).2 = 1 :=
  ⟨by decide, fmtRadian_spec.2.2.2.2.2.2 (-3) 2 (by decide)⟩

/-
Function-plot path builder (C8), from FunctionPlot.tsx buildPath and its
helpers.  A plotted function is ℚ → Option ℚ: none models an evaluation
that throws or returns a non-finite number.  The built path is the list of
subpaths (most recent first); moveTo opens a subpath, lineTo appends to the
current one.  The source compares Math.hypot(dx,dy) <= maxSegmentPx; the
embedding uses the equivalent square comparison dx^2+dy^2 <= maxSegmentPx^2
(see hypot_le_iff_sq_le), keeping the builder executable over ℚ.
-/

/-- Path-builder state: the subpaths built so far (most recent first), the
pen flag, the last accepted sample, and the emitted point count. -/
structure BState where
  subpaths : List (List Pt)
  penDown : Bool
  last : Option Pt
  points : ℕ
deriving DecidableEq, Repr

/-- FunctionPlot.tsx safeY: none when fn fails (throw / non-finite) or the
value exceeds yLimit in absolute value. -/
def safeY (fn : ℚ → Option ℚ) (yLimit x : ℚ) : Option ℚ :=
  match fn x with
  | none => none
  | some y => if |y| > yLimit then none else some y

/-- Path2D lineTo on the subpath list: append to the current (head)
subpath, or open one if none exists. -/
def lineToList (q : Pt) : List (List Pt) → List (List Pt)
  | [] => [[q]]
  | sub :: rest => (sub ++ [q]) :: rest

/-- The emission block of addSegment: moveTo(ax,ay) when the pen is up
(counting one point), then lineTo(bx,yb), updating lastX/lastY. -/
def emitSeg (ax ay bx yb : ℚ) (s : BState) : BState :=
  let s1 := if s.penDown then s
    else { s with subpaths := ([(⟨ax, ay⟩ : Pt)] :: s.subpaths),
                  penDown := true, points := s.points + 1 }
  { s1 with
    subpaths := lineToList ⟨bx, yb⟩ s1.subpaths,
    points := s1.points + 1,
    last := some (⟨bx, yb⟩ : Pt) }

/-- FunctionPlot.tsx addSegment.  fuel = maxDepth - depth, so fuel 0 is the
depth >= maxDepth cutoff (where the source emits regardless of segment
length); an invalid right endpoint lifts the pen; an invalid midpoint
recurses into both halves with the pen lifted between them. -/
def addSeg (fn : ℚ → Option ℚ) (toScr : Pt → Pt) (maxSegmentPx yLimit : ℚ)
    (maxPoints : ℕ) : ℕ → ℚ → ℚ → ℚ → BState → BState
  | 0, ax, ay, bx, s =>
    if s.points > maxPoints then s
    else
      match safeY fn yLimit bx with
      | none => { s with penDown := false, last := none }
      | some yb => emitSeg ax ay bx yb s
  | f + 1, ax, ay, bx, s =>
    if s.points > maxPoints then s
    else
      match safeY fn yLimit bx with
      | none => { s with penDown := false, last := none }
      | some yb =>
        if ((toScr ⟨bx, yb⟩).x - (toScr ⟨ax, ay⟩).x) ^ 2 +
            ((toScr ⟨bx, yb⟩).y - (toScr ⟨ax, ay⟩).y) ^ 2 ≤
            maxSegmentPx ^ 2 then
          emitSeg ax ay bx yb s
        else
          match safeY fn yLimit ((ax + bx) / 2) with
          | none =>
            addSeg fn toScr maxSegmentPx yLimit maxPoints f ((ax + bx) / 2) ay bx
              { (addSeg fn toScr maxSegmentPx yLimit maxPoints f ax ay
                  ((ax + bx) / 2) s) with penDown := false, last := none }
          | some my =>
            addSeg fn toScr maxSegmentPx yLimit maxPoints f ((ax + bx) / 2) my bx
              (addSeg fn toScr maxSegmentPx yLimit maxPoints f ax ay
                ((ax + bx) / 2) s)

/-- One iteration of buildPath's coarse sampling loop; the boolean is the
break flag raised when points exceeds maxPoints after addSegment. -/
def loopStep (fn : ℚ → Option ℚ) (toScr : Pt → Pt) (maxSegmentPx yLimit : ℚ)
    (maxPoints maxDepth : ℕ) (acc : BState × Bool) (x : ℚ) : BState × Bool :=
  if acc.2 then acc
  else
    match safeY fn yLimit x with
    | none => ({ acc.1 with penDown := false, last := none }, false)
    | some y =>
      match acc.1.last with
      | none =>
        ({ acc.1 with
            subpaths := ([(⟨x, y⟩ : Pt)] :: acc.1.subpaths),
            penDown := true,
            last := some (⟨x, y⟩ : Pt),
            points := acc.1.points + 1 }, false)
      | some lp =>
        ((addSeg fn toScr maxSegmentPx yLimit maxPoints maxDepth lp.x lp.y x acc.1),
          decide ((addSeg fn toScr maxSegmentPx yLimit maxPoints maxDepth
            lp.x lp.y x acc.1).points > maxPoints))

/-- The expansion while-loop of screenToWorldX: widen [lo,hi] until the
target screen x is bracketed; after the 21st expansion the source bails out
to the fallback (modelled as none). -/
def expandLoop (f : ℚ → ℚ) (target : ℚ) : ℕ → ℚ → ℚ → ℚ → ℚ → Option (ℚ × ℚ × ℚ × ℚ)
  | 0, _, _, _, _ => none
  | n + 1, lo, hi, flo, fhi =>
    if (flo ≤ target ∧ target ≤ fhi) ∨ (fhi ≤ target ∧ target ≤ flo) then
      some (lo, hi, flo, fhi)
    else
      expandLoop f target n (lo - (hi - lo)) (hi + (hi - lo))
        (f (lo - (hi - lo))) (f (hi + (hi - lo)))

/-- The 24-iteration bisection of screenToWorldX; flo/fhi are not
recomputed inside the loop, so their order enters as a fixed boolean. -/
def bisectLoop (f : ℚ → ℚ) (target : ℚ) (floLtFhi : Bool) : ℕ → ℚ → ℚ → ℚ
  | 0, lo, hi => (lo + hi) / 2
  | n + 1, lo, hi =>
    if f ((lo + hi) / 2) = target then (lo + hi) / 2
    else if decide (f ((lo + hi) / 2) < target) = floLtFhi then
      bisectLoop f target floLtFhi n ((lo + hi) / 2) hi
    else bisectLoop f target floLtFhi n lo ((lo + hi) / 2)

/-- FunctionPlot.tsx screenToWorldX: numerically invert toScreen along x. -/
def screenToWorldX (screenX : ℚ) (toScr : Pt → Pt) (guessWorldX : ℚ) : ℚ :=
  match expandLoop (fun x => (toScr ⟨x, 0⟩).x) screenX 21
      (guessWorldX - 1) (guessWorldX + 1)
      ((toScr ⟨guessWorldX - 1, 0⟩).x)
      ((toScr ⟨guessWorldX + 1, 0⟩).x) with
  | none => guessWorldX
  | some (lo, hi, flo, fhi) =>
      bisectLoop (fun x => (toScr ⟨x, 0⟩).x) screenX
        (decide (flo < fhi)) 24 lo hi

/-- FunctionPlot.tsx estimateWorldStep: world-x increment matching pxStep
screen pixels near the left edge, with the guarded fallback. -/
def estimateWorldStep (toScr : Pt → Pt) (x0 x1 pxStep : ℚ) : ℚ :=
  let w1 := screenToWorldX ((toScr ⟨x0, 0⟩).x + pxStep) toScr x0
  if |w1 - x0| > 1/10^12 then |w1 - x0|
  else (x1 - x0) / max 1000 ((x1 - x0) * 100)

/-- FunctionPlot.tsx buildPath: sample the coarse grid (final sample forced
to x1), lifting the pen on invalid samples, refining valid spans through
addSegment, and breaking once maxPoints is exceeded. -/
def buildPath (fn : ℚ → Option ℚ) (toScr : Pt → Pt)
    (x0 x1 pxStep maxSegmentPx yLimit : ℚ) (maxDepth maxPoints : ℕ) : BState :=
  let stepWorld := estimateWorldStep toScr x0 x1 pxStep
  let n : ℕ := max 2 ⌈(x1 - x0) / stepWorld⌉.toNat
  (((List.range (n + 1)).map
      (fun i => if i = n then x1 else x0 + (i : ℚ) * stepWorld)).foldl
    (loopStep fn toScr maxSegmentPx yLimit maxPoints maxDepth)
    (⟨[], false, none, 0⟩, false)).1

/-- The plotted function f(x) = 1/x of the claim: at x = 0 the JS division
yields Infinity, a non-finite value, modelled as none. -/
def recipFn (x : ℚ) : Option ℚ := if x = 0 then none else some (1/x)

/-- Justification for the squared comparison in addSeg: for a non-negative
bound, hypot(dx,dy) <= m is equivalent to dx^2 + dy^2 <= m^2. -/
theorem hypot_le_iff_sq_le (dx dy m : ℝ) (hm : 0 ≤ m) :
    Real.sqrt (dx ^ 2 + dy ^ 2) ≤ m ↔ dx ^ 2 + dy ^ 2 ≤ m ^ 2 := by
  rw [show m = Real.sqrt (m ^ 2) from (Real.sqrt_sq hm).symm]
  rw [Real.sqrt_le_sqrt_iff (by positivity), Real.sqrt_sq hm]

/-- Every point stored in the path is bounded by yLimit, and so is the
remembered last sample. -/
def pathBounded (yLimit : ℚ) (s : BState) : Prop :=
  (∀ sub ∈ s.subpaths, ∀ p ∈ sub, |p.y| ≤ yLimit) ∧
    ∀ p : Pt, s.last = some p → |p.y| ≤ yLimit

theorem safeY_le {fn : ℚ → Option ℚ} {yLimit x y : ℚ}
    (h : safeY fn yLimit x = some y) : |y| ≤ yLimit := by
  rw [safeY] at h
  split at h
  · exact Option.noConfusion h
  · split at h
    · exact Option.noConfusion h
    · rename_i hb
      injection h with h2
      subst h2
      exact le_of_not_lt hb

theorem pathBounded_penUp {yLimit : ℚ} {s : BState} (h : pathBounded yLimit s) :
    pathBounded yLimit { s with penDown := false, last := none } :=
  ⟨h.1, fun _ hp => Option.noConfusion hp⟩

theorem lineToList_bounded {yLimit : ℚ} {q : Pt} {subs : List (List Pt)}
    (hsubs : ∀ sub ∈ subs, ∀ p ∈ sub, |p.y| ≤ yLimit) (hq : |q.y| ≤ yLimit) :
    ∀ sub ∈ lineToList q subs, ∀ p ∈ sub, |p.y| ≤ yLimit := by
  intro sub hsub p hp
  cases subs with
  | nil =>
    rw [lineToList, List.mem_singleton] at hsub
    subst hsub
    rw [List.mem_singleton] at hp
    subst hp
    exact hq
  | cons sub0 rest =>
    rw [lineToList] at hsub
    rcases List.mem_cons.mp hsub with rfl | h2
    · rcases List.mem_append.mp hp with hpl | hpr
      · exact hsubs sub0 (List.mem_cons_self _ _) p hpl
      · rw [List.mem_singleton] at hpr
        subst hpr
        exact hq
    · exact hsubs sub (List.mem_cons_of_mem _ h2) p hp

set_option maxHeartbeats 2000000 in
theorem emitSeg_bounded {yLimit ax ay bx yb : ℚ} {s : BState}
    (hs : pathBounded yLimit s) (hay : |ay| ≤ yLimit) (hyb : |yb| ≤ yLimit) :
    pathBounded yLimit (emitSeg ax ay bx yb s) := by
  rw [emitSeg]
  by_cases hpd : s.penDown
  · rw [if_pos hpd]
    refine ⟨lineToList_bounded hs.1 hyb, ?_⟩
    intro p hp
    injection hp with h2
    subst h2
    exact hyb
  · rw [if_neg hpd]
    have hmv : ∀ sub ∈ ([(⟨ax, ay⟩ : Pt)] :: s.subpaths), ∀ p ∈ sub, |p.y| ≤ yLimit := by
      intro sub hsub p hp
      rcases List.mem_cons.mp hsub with rfl | h2
      · rw [List.mem_singleton] at hp
        subst hp
        exact hay
      · exact hs.1 sub h2 p hp
    refine ⟨lineToList_bounded (q := ⟨bx, yb⟩) hmv hyb, ?_⟩
    intro p hp
    injection hp with h2
    subst h2
    exact hyb

theorem addSeg_bounded (fn : ℚ → Option ℚ) (toScr : Pt → Pt)
    (maxSeg yLim : ℚ) (maxPts : ℕ) :
    ∀ (fuel : ℕ) (ax ay bx : ℚ) (s : BState), pathBounded yLim s → |ay| ≤ yLim →
      pathBounded yLim (addSeg fn toScr maxSeg yLim maxPts fuel ax ay bx s) := by
  intro fuel
  induction fuel with
  | zero =>
    intro ax ay bx s hs hay
    unfold addSeg
    split
    · exact hs
    · split
      · exact pathBounded_penUp hs
      · rename_i yb hyb
        exact emitSeg_bounded hs hay (safeY_le hyb)
  | succ f ih =>
    intro ax ay bx s hs hay
    unfold addSeg
    split
    · exact hs
    · split
      · exact pathBounded_penUp hs
      · rename_i yb hyb
        split
        · exact emitSeg_bounded hs hay (safeY_le hyb)
        · split
          · exact ih _ _ _ _ (pathBounded_penUp (ih _ _ _ _ hs hay)) hay
          · rename_i my hmy
            exact ih _ _ _ _ (ih _ _ _ _ hs hay) (safeY_le hmy)

theorem loopStep_bounded (fn : ℚ → Option ℚ) (toScr : Pt → Pt)
    (maxSeg yLim : ℚ) (maxPts maxDep : ℕ) (acc : BState × Bool) (x : ℚ)
    (hs : pathBounded yLim acc.1) :
    pathBounded yLim (loopStep fn toScr maxSeg yLim maxPts maxDep acc x).1 := by
  unfold loopStep
  split
  · exact hs
  · split
    · exact pathBounded_penUp hs
    · rename_i y hy
      split
      · constructor
        · intro sub hsub p hp
          rcases List.mem_cons.mp hsub with rfl | h2
          · rw [List.mem_singleton] at hp
            subst hp
            exact safeY_le hy
          · exact hs.1 sub h2 p hp
        · intro p hp
          injection hp with h2
          subst h2
          exact safeY_le hy
      · rename_i lp hlp
        exact addSeg_bounded fn toScr maxSeg yLim maxPts maxDep lp.x lp.y x acc.1
          hs (hs.2 lp hlp)

theorem loopFold_bounded (fn : ℚ → Option ℚ) (toScr : Pt → Pt)
    (maxSeg yLim : ℚ) (maxPts maxDep : ℕ) :
    ∀ (l : List ℚ) (acc : BState × Bool), pathBounded yLim acc.1 →
      pathBounded yLim
        ((l.foldl (loopStep fn toScr maxSeg yLim maxPts maxDep) acc)).1 := by
  intro l
  induction l with
  | nil => intro acc hs; exact hs
  | cons x rest ih =>
    intro acc hs
    rw [List.foldl_cons]
    exact ih _ (loopStep_bounded fn toScr maxSeg yLim maxPts maxDep acc x hs)

theorem addSeg_lift (fn : ℚ → Option ℚ) (toScr : Pt → Pt) (maxSeg yLim : ℚ)
    (maxPts : ℕ) (fuel : ℕ) (ax ay bx : ℚ) (s : BState)
    (hpts : s.points ≤ maxPts) (hb : safeY fn yLim bx = none) :
    addSeg fn toScr maxSeg yLim maxPts fuel ax ay bx s =
      { s with penDown := false, last := none } := by
  cases fuel with
  | zero =>
    unfold addSeg
    rw [if_neg (not_lt.mpr hpts), hb]
  | succ f =>
    unfold addSeg
    rw [if_neg (not_lt.mpr hpts), hb]

theorem loopStep_lift (fn : ℚ → Option ℚ) (toScr : Pt → Pt) (maxSeg yLim : ℚ)
    (maxPts maxDep : ℕ) (s : BState) (x : ℚ) (hx : safeY fn yLim x = none) :
    loopStep fn toScr maxSeg yLim maxPts maxDep (s, false) x =
      ({ s with penDown := false, last := none }, false) := by
  unfold loopStep
  rw [hx]
  rfl

set_option maxHeartbeats 1000000 in
unseal Rat.mul Rat.add Rat.sub Rat.inv in
/-- C8: an invalid sample (fn throws / non-finite / |y| above yLimit, all
modelled by safeY = none) lifts the pen both at a coarse sample and at a
refinement endpoint, emitting nothing; every point ever emitted into the
built path satisfies |y| ≤ yLimit; and plotting f(x) = 1/x over [-1,1]
with the provider's initial view and the component defaults produces two
disjoint subpaths. -/
theorem buildPath_discontinuity :
    (∀ (fn : ℚ → Option ℚ) (toScr : Pt → Pt) (maxSeg yLim : ℚ)
        (maxPts fuel : ℕ) (ax ay bx : ℚ) (s : BState), s.points ≤ maxPts →
        safeY fn yLim bx = none →
        addSeg fn toScr maxSeg yLim maxPts fuel ax ay bx s =
          { s with penDown := false, last := none }) ∧
      (∀ (fn : ℚ → Option ℚ) (toScr : Pt → Pt) (maxSeg yLim : ℚ)
          (maxPts maxDep : ℕ) (s : BState) (x : ℚ), safeY fn yLim x = none →
          loopStep fn toScr maxSeg yLim maxPts maxDep (s, false) x =
            ({ s with penDown := false, last := none }, false)) ∧
      (∀ (fn : ℚ → Option ℚ) (toScr : Pt → Pt) (x0 x1 pxStep maxSeg yLim : ℚ)
          (maxDep maxPts : ℕ),
          ∀ sub ∈ (buildPath fn toScr x0 x1 pxStep maxSeg yLim maxDep maxPts).subpaths,
            ∀ p ∈ sub, |p.y| ≤ yLim) ∧
      (buildPath recipFn (toScreen initMatState) (-1) 1 1 4 (10^6) 12
        200000).subpaths.length = 2 := by
  refine ⟨?_, ?_, ?_, ?_⟩
  · intro fn toScr maxSeg yLim maxPts fuel ax ay bx s hpts hb
    exact addSeg_lift fn toScr maxSeg yLim maxPts fuel ax ay bx s hpts hb
  · intro fn toScr maxSeg yLim maxPts maxDep s x hx
    exact loopStep_lift fn toScr maxSeg yLim maxPts maxDep s x hx
  · intro fn toScr x0 x1 pxStep maxSeg yLim maxDep maxPts
    rw [buildPath]
    exact (loopFold_bounded fn toScr maxSeg yLim maxPts maxDep _ _
      ⟨fun sub hsub => absurd hsub (List.not_mem_nil sub),
       fun p hp => Option.noConfusion hp⟩).1
  · decide

unseal Rat.mul Rat.add Rat.sub Rat.inv in
/-- Witness for C8's pen-lift clauses at the singular sample x = 0 of 1/x. -/
theorem buildPath_witness :
    safeY recipFn (10^6) 0 = none ∧ (0 : ℕ) ≤ 200000 ∧
      addSeg recipFn (toScreen initMatState) 4 (10^6) 200000 12 (-1) (-1) 0
          ⟨[], false, none, 0⟩ =
        { (⟨[], false, none, 0⟩ : BState) with penDown := false, last := none } :=
  ⟨by decide, by decide,
   buildPath_discontinuity.1 recipFn (toScreen initMatState) 4 (10^6) 200000 12
     (-1) (-1) 0 ⟨[], false, none, 0⟩ (by decide) (by decide)⟩

end CanvasWorks
